import Mathlib

/-!
Verification of the `ststore` package of wireleap-common: a hierarchically
indexed in-memory sharetoken store (three-level map k1 → k2 → k3 → token)
whose mutations are mirrored to a record store on disk.

The in-memory index of `ststore.go` uses Go maps; here each level is embedded
as an association list from string keys to values, with Go map indexing,
assignment, `delete` and `len` translated to `afind`, `ainsert`, `aerase` and
list emptiness.  The external collaborators (the fsdir record store and the
sharetoken settling predicate) are supplied through a context `Ctx`; for the
bootstrap claims a concrete record-store model `Disk` is provided.
-/

set_option autoImplicit false

universe u

variable {β γ : Type u} {α δ : Type}

/-- An association-list map from string keys to values: the embedding of a Go
`map[string]β`.  Go map iteration order is not specified; the embedding fixes
list order, and query results are compared up to permutation. -/
abbrev AMap (β : Type u) : Type u := List (String × β)

/-- The empty map (`map[string]β{}` / a `nil` map read-only). -/
def aempty : AMap β := []

/-- Go map indexing `m[k]`: the value at the first matching key, if any.
`none` corresponds to Go's `nil` / zero-value result for an absent key. -/
def afind : AMap β → String → Option β
  | [], _ => none
  | (k', v) :: m, k => if k' = k then some v else afind m k

/-- Go map assignment `m[k] = v`: replace the first binding of `k`, or append
a new binding if `k` is absent. -/
def ainsert : AMap β → String → β → AMap β
  | [], k, v => [(k, v)]
  | (k', v') :: m, k, v => if k' = k then (k, v) :: m else (k', v') :: ainsert m k v

/-- Go `delete(m, k)`: remove the first binding of `k`, if any. -/
def aerase : AMap β → String → AMap β
  | [], _ => []
  | (k', v') :: m, k => if k' = k then m else (k', v') :: aerase m k

/-- The keys of the map, in list order. -/
def akeys (m : AMap β) : List String := m.map Prod.fst

/-- The values of the map, in list order (Go `for _, v := range m`). -/
def avalues (m : AMap β) : List β := m.map Prod.snd

/-- The error type of the store: `DuplicateSTError` from `ststore.go`, or an
error propagated from the record store / deserialization. -/
inductive Err : Type
  | DuplicateSTError : Err
  | ioErr : String → Err
deriving DecidableEq, Repr

/-- The innermost map `st1map`: k3 → sharetoken. -/
abbrev St1Map (α : Type) : Type := AMap α

/-- The middle map `st2map`: k2 → k3 → sharetoken. -/
abbrev St2Map (α : Type) : Type := AMap (AMap α)

/-- The outer map `st3map`: k1 → k2 → k3 → sharetoken. -/
abbrev St3Map (α : Type) : Type := AMap (AMap (AMap α))

/-- The external collaborators of the store, over token type `α` and record
store state type `δ`: the pluggable `KeyFunc` deriving the key triple, the
fsdir `Set`/`Del` operations (state-passing, fallible), and the sharetoken
`IsSettlingAt` predicate.  `mset st segs d` embeds `t.m.Set(st, segs...)` and
`mdel segs d` embeds `t.m.Del(segs...)`. -/
structure Ctx (α δ : Type) : Type where
  keyf : α → String × String × String
  mset : α → List String → δ → Except Err δ
  mdel : List String → δ → Except Err δ
  settling : α → Int → Bool

/-- The sharetoken store `T` of `ststore.go`: the in-memory three-level index
`sts` together with the record-store state (the `fsdir.T` handle's backing
state).  The mutex is not modelled: all operations run inside their critical
section, so the embedding is their sequential state transformation. -/
structure T (α δ : Type) : Type where
  sts : St3Map α
  disk : δ

/-- `T.Add` from `ststore.go`: derive (k1,k2,k3); create missing levels;
fail with `DuplicateSTError` if the leaf is occupied; otherwise insert the
token and write the record at path (k1, k3+".json").  A write failure is
returned but the in-memory insertion is kept. -/
def T.Add (c : Ctx α δ) (t : T α δ) (st : α) : T α δ × Option Err :=
  let p := c.keyf st
  let k1 := p.1
  let k2 := p.2.1
  let k3 := p.2.2
  let sts1 := if (afind t.sts k1).isNone then ainsert t.sts k1 aempty else t.sts
  let m1 := (afind sts1 k1).getD aempty
  let sts2 := if (afind m1 k2).isNone then ainsert sts1 k1 (ainsert m1 k2 aempty) else sts1
  let m1b := (afind sts2 k1).getD aempty
  let m2 := (afind m1b k2).getD aempty
  match afind m2 k3 with
  | some _ => ({ t with sts := sts2 }, some Err.DuplicateSTError)
  | none =>
    let sts3 := ainsert sts2 k1 (ainsert m1b k2 (ainsert m2 k3 st))
    match c.mset st [k1, k3 ++ ".json"] t.disk with
    | Except.error e => ({ sts := sts3, disk := t.disk }, some e)
    | Except.ok d => ({ sts := sts3, disk := d }, none)

/-- `T.Del` from `ststore.go`: derive (k1,k2,k3); if any level is absent,
return success unchanged; otherwise remove the leaf, delete the file at
(k1, k3+".json") (returning its error immediately on failure), then prune a
now-empty k2 entry, and prune a now-empty k1 entry together with its on-disk
group. -/
def T.Del (c : Ctx α δ) (t : T α δ) (st : α) : T α δ × Option Err :=
  let p := c.keyf st
  let k1 := p.1
  let k2 := p.2.1
  let k3 := p.2.2
  match afind t.sts k1 with
  | none => (t, none)
  | some m1 =>
    match afind m1 k2 with
    | none => (t, none)
    | some m2 =>
      match afind m2 k3 with
      | none => (t, none)
      | some _ =>
        let m2' := aerase m2 k3
        let sts1 := ainsert t.sts k1 (ainsert m1 k2 m2')
        match c.mdel [k1, k3 ++ ".json"] t.disk with
        | Except.error e => ({ sts := sts1, disk := t.disk }, some e)
        | Except.ok d =>
          let m1' := ainsert m1 k2 m2'
          let m1'' := if m2'.isEmpty then aerase m1' k2 else m1'
          let sts2 := ainsert sts1 k1 m1''
          if m1''.isEmpty then
            let sts3 := aerase sts2 k1
            match c.mdel [k1] d with
            | Except.error e => ({ sts := sts3, disk := d }, some e)
            | Except.ok d2 => ({ sts := sts3, disk := d2 }, none)
          else ({ sts := sts2, disk := d }, none)

/-- `T.Filter` from `ststore.go`: list the sharetokens matching keys k1 and
k2, where an empty string means "for all values of this key". -/
def T.Filter (t : T α δ) (k1 k2 : String) : List α :=
  if k1 = "" then
    if k2 = "" then
      t.sts.flatMap fun p1 => p1.2.flatMap fun p2 => avalues p2.2
    else
      t.sts.flatMap fun p1 => avalues ((afind p1.2 k2).getD aempty)
  else
    if k2 = "" then
      ((afind t.sts k1).getD aempty).flatMap fun p2 => avalues p2.2
    else
      avalues ((afind ((afind t.sts k1).getD aempty) k2).getD aempty)

/-- `T.SettlingAt` from `ststore.go`: count, indexed by relay public key, the
sharetokens among `Filter("", rpk)` still settling at `utime` (`r[rpk]++` on
a Go map reads 0 for an absent key). -/
def T.SettlingAt (c : Ctx α δ) (t : T α δ) (rpk : String) (utime : Int) : AMap Nat :=
  List.foldl
    (fun r st => if c.settling st utime then ainsert r rpk ((afind r rpk).getD 0 + 1) else r)
    aempty (T.Filter t "" rpk)

/-- Lookup of the full key chain in the index: `t.sts[k1][k2][k3]` with Go's
nil-propagation for absent levels. -/
def lookup3 (s : St3Map α) (k1 k2 k3 : String) : Option α :=
  match afind s k1 with
  | none => none
  | some m1 =>
    match afind m1 k2 with
    | none => none
    | some m2 => afind m2 k3

/-- Modelled from the spec: one persisted record of the RecordStore (fsdir),
which is not part of the given source.  A record lives at path (dir, name)
under the store root; `blob` is its content as seen by deserialization
(`none` embeds a file whose content fails to deserialize). -/
structure FileRec (α : Type) : Type where
  dir : String
  name : String
  blob : Option α
deriving DecidableEq, Repr

/-- Modelled from the spec: the RecordStore state, a flat listing of the
persisted records under the store root. -/
abbrev Disk (α : Type) : Type := List (FileRec α)

/-- The embedding of Go `strings.HasSuffix` on string content. -/
def hasSuffix (s sfx : String) : Bool := decide (sfx.data <:+ s.data)

/-- Modelled from the spec: fsdir `Set` writes one serialized record at path
(dir, name), replacing any record already at that path. -/
def fsSet (st : α) (segs : List String) (d : Disk α) : Except Err (Disk α) :=
  match segs with
  | [dir, name] =>
    Except.ok ((d.filter fun r => !(r.dir = dir ∧ r.name = name : Bool)) ++ [⟨dir, name, some st⟩])
  | _ => Except.error (Err.ioErr "bad path")

/-- Modelled from the spec: fsdir `Del` with two path segments removes the
record at (dir, name); with one segment it removes the whole k1 group
directory. -/
def fsDel (segs : List String) (d : Disk α) : Except Err (Disk α) :=
  match segs with
  | [dir, name] => Except.ok (d.filter fun r => !(r.dir = dir ∧ r.name = name : Bool))
  | [dir] => Except.ok (d.filter fun r => !(r.dir = dir : Bool))
  | _ => Except.error (Err.ioErr "bad path")

/-- The context instantiated with the concrete RecordStore model. -/
def fsCtx (keyf : α → String × String × String) (settling : α → Int → Bool) :
    Ctx α (Disk α) :=
  { keyf := keyf, mset := fsSet, mdel := fsDel, settling := settling }

/-- The walk step of `New` in `ststore.go` over a snapshot of the persisted
records: skip names without the ".json" suffix; fail if a record does not
deserialize (modelled from the spec: `Get` yields the record's `blob`); feed
each token through `T.Add`, aborting on its error. -/
def loadRecs (c : Ctx α (Disk α)) : List (FileRec α) → T α (Disk α) → Except Err (T α (Disk α))
  | [], t => Except.ok t
  | r :: rs, t =>
    if hasSuffix r.name ".json" then
      match r.blob with
      | none => Except.error (Err.ioErr "deserialize")
      | some st =>
        match T.Add c t st with
        | (t1, none) => loadRecs c rs t1
        | (_, some e) => Except.error e
    else loadRecs c rs t

/-- `New` from `ststore.go`: initialize a store over an existing on-disk
layout by walking every persisted record and replaying it through `T.Add`;
any error aborts construction. -/
def New (c : Ctx α (Disk α)) (d : Disk α) : Except Err (T α (Disk α)) :=
  loadRecs c d { sts := aempty, disk := d }

/-- Sequential `Add` of a list of tokens; the Bool records whether every
call returned without error. -/
def addAll (c : Ctx α δ) : List α → T α δ → T α δ × Bool
  | [], t => (t, true)
  | st :: sts', t =>
    match T.Add c t st with
    | (t1, none) => addAll c sts' t1
    | (t1, some _) => ((addAll c sts' t1).1, false)

/-- A store operation: a live `Add` or `Del` call. -/
inductive Op (α : Type) : Type
  | add : α → Op α
  | del : α → Op α

/-- Apply one operation, keeping the resulting store state. -/
def stepOp (c : Ctx α δ) (t : T α δ) : Op α → T α δ
  | Op.add st => (T.Add c t st).1
  | Op.del st => (T.Del c t st).1

/-- Run a sequence of operations from a starting state. -/
def runOps (c : Ctx α δ) (t : T α δ) (ops : List (Op α)) : T α δ :=
  ops.foldl (stepOp c) t

/-- The flattened leaf entries of the index, as (k1, k2, k3, token). -/
def entries3 (s : St3Map α) : List (String × String × String × α) :=
  s.flatMap fun p1 => p1.2.flatMap fun p2 => p2.2.map fun r => (p1.1, p2.1, r.1, r.2)

/-- The in-memory index after a non-duplicate insertion at (k1,k2,k3). -/
def addSts (s : St3Map α) (k1 k2 k3 : String) (st : α) : St3Map α :=
  let m1 := (afind s k1).getD aempty
  let m2 := (afind m1 k2).getD aempty
  ainsert s k1 (ainsert m1 k2 (ainsert m2 k3 st))

/-- The index transformation of a non-duplicate Add, keyed by the KeyFunc. -/
def addIdx (kf : α → String × String × String) (s : St3Map α) (st : α) : St3Map α :=
  addSts s (kf st).1 (kf st).2.1 (kf st).2.2 st

/-- The tokens obtained by deserializing the ".json" records of a disk
listing, in walk order (`none` blobs are dropped; they abort `New` anyway). -/
def jsonTokens : List (FileRec α) → List α :=
  List.filterMap fun r => if hasSuffix r.name ".json" then r.blob else none

/-- The record written by `Add` for a token under key strategy kf. -/
def mkRec (kf : α → String × String × String) (u : α) : FileRec α :=
  { dir := (kf u).1, name := (kf u).2.2 ++ ".json", blob := some u }

/-- Key strategy fixture used in concrete witnesses. -/
def kfW : Nat → String × String × String
  | 0 => ("g", "r", "a")
  | 1 => ("g", "s", "b")
  | 2 => ("h", "r", "c")
  | _ => ("h", "s", "d")

/-- Record-store fixture whose operations all fail. -/
def failCtx : Ctx Nat Unit :=
  { keyf := kfW, mset := fun _ _ _ => Except.error (Err.ioErr "io"),
    mdel := fun _ _ => Except.error (Err.ioErr "io"), settling := fun n _ => n == 0 }

/-- Record-store fixture whose operations all succeed (state unchanged). -/
def okCtx : Ctx Nat Unit :=
  { keyf := kfW, mset := fun _ _ d => Except.ok d,
    mdel := fun _ d => Except.ok d, settling := fun n _ => n == 0 }

/-- A store fixture holding token 0 at ("g","r","a"). -/
def tW : T Nat Unit := { sts := [("g", [("r", [("a", 0)])])], disk := () }

/-- Key strategy fixture mapping every token to an empty-string k2. -/
def kfE : Nat → String × String × String := fun _ => ("g", "", "a")

/-- Reliable record-store fixture over the empty-k2 key strategy. -/
def okCtxE : Ctx Nat Unit :=
  { keyf := kfE, mset := fun _ _ d => Except.ok d,
    mdel := fun _ d => Except.ok d, settling := fun _ _ => false }

/-- Key strategy fixture with two distinct triples sharing (k1, k3). -/
def kf9 : Nat → String × String × String
  | 0 => ("a", "b", "c")
  | _ => ("a", "B", "c")

/-- The concrete-record-store context over kf9. -/
def c9 : Ctx Nat (Disk Nat) := fsCtx kf9 (fun _ _ => false)

/-- The concrete-record-store context over kfW. -/
def cW9 : Ctx Nat (Disk Nat) := fsCtx kfW (fun _ _ => false)

/-- Well-formedness of the index as produced by Go maps: no level contains a
duplicate key. -/
abbrev WF3 (s : St3Map α) : Prop :=
  (akeys s).Nodup ∧ ∀ p ∈ s, (akeys p.2).Nodup ∧ ∀ q ∈ p.2, (akeys q.2).Nodup

/-- No empty inner mapping is left behind: every k1 entry holds a non-empty
k2 map and every k2 entry holds a non-empty k3 map. -/
abbrev noEmptyInner (s : St3Map α) : Prop :=
  ∀ p ∈ s, p.2 ≠ [] ∧ ∀ q ∈ p.2, q.2 ≠ []

/-! ### Association-list map lemmas -/

theorem afind_ainsert_self (m : AMap β) (k : String) (v : β) :
    afind (ainsert m k v) k = some v := by
  induction m with
  | nil => simp [ainsert, afind]
  | cons p m ih =>
    obtain ⟨k', v'⟩ := p
    by_cases h : k' = k <;> simp [ainsert, afind, h, ih]

theorem afind_ainsert_ne (m : AMap β) (k k'' : String) (v : β) (h : k'' ≠ k) :
    afind (ainsert m k v) k'' = afind m k'' := by
  induction m with
  | nil => simp [ainsert, afind, Ne.symm h]
  | cons p m ih =>
    obtain ⟨k', v'⟩ := p
    by_cases hk : k' = k
    · subst hk
      simp [ainsert, afind, Ne.symm h]
    · by_cases hk2 : k' = k'' <;> simp [ainsert, afind, hk, hk2, ih, h]

theorem ainsert_ainsert (m : AMap β) (k : String) (a b : β) :
    ainsert (ainsert m k a) k b = ainsert m k b := by
  induction m with
  | nil => simp [ainsert]
  | cons p m ih =>
    obtain ⟨k', v'⟩ := p
    by_cases h : k' = k <;> simp [ainsert, h, ih]

theorem ainsert_of_afind (m : AMap β) (k : String) (v : β) (h : afind m k = some v) :
    ainsert m k v = m := by
  induction m with
  | nil => simp [afind] at h
  | cons p m ih =>
    obtain ⟨k', v'⟩ := p
    by_cases hk : k' = k
    · subst hk
      simp [afind] at h
      simp [ainsert, h]
    · simp [afind, hk] at h
      simp [ainsert, hk, ih h]

theorem ainsert_ne_nil (m : AMap β) (k : String) (v : β) : ainsert m k v ≠ [] := by
  induction m with
  | nil => simp [ainsert]
  | cons p m ih =>
    obtain ⟨k', v'⟩ := p
    by_cases h : k' = k <;> simp [ainsert, h]

theorem mem_of_afind (m : AMap β) (k : String) (v : β) (h : afind m k = some v) :
    (k, v) ∈ m := by
  induction m with
  | nil => simp [afind] at h
  | cons p m ih =>
    obtain ⟨k', v'⟩ := p
    by_cases hk : k' = k
    · subst hk
      simp [afind] at h
      simp [h]
    · simp [afind, hk] at h
      simp [ih h]

theorem mem_avalues (m : AMap β) (v : β) : v ∈ avalues m ↔ ∃ k, (k, v) ∈ m := by
  simp only [avalues, List.mem_map]
  constructor
  · rintro ⟨⟨k, v'⟩, hm, rfl⟩
    exact ⟨k, hm⟩
  · rintro ⟨k, hm⟩
    exact ⟨(k, v), hm, rfl⟩

theorem mem_avalues_of_afind (m : AMap β) (k : String) (v : β) (h : afind m k = some v) :
    v ∈ avalues m :=
  (mem_avalues m v).2 ⟨k, mem_of_afind m k v h⟩

theorem afind_of_mem (m : AMap β) (k : String) (v : β)
    (hnd : (akeys m).Nodup) (h : (k, v) ∈ m) : afind m k = some v := by
  induction m with
  | nil => simp at h
  | cons p m ih =>
    obtain ⟨k', v'⟩ := p
    simp only [akeys, List.map_cons, List.nodup_cons] at hnd
    rcases List.mem_cons.1 h with h | h
    · obtain ⟨h1, h2⟩ := Prod.ext_iff.1 h
      subst h1
      subst h2
      simp [afind]
    · have hk : k' ≠ k := by
        rintro rfl
        exact hnd.1 (List.mem_map.2 ⟨(k', v), h, rfl⟩)
      simp [afind, hk, ih hnd.2 h]

theorem ainsert_cons_self (m : AMap β) (k : String) (v v' : β) :
    ainsert ((k, v') :: m) k v = (k, v) :: m := by
  simp [ainsert]

theorem ainsert_cons_ne (m : AMap β) (k k' : String) (v v' : β) (hk : k' ≠ k) :
    ainsert ((k', v') :: m) k v = (k', v') :: ainsert m k v := by
  simp [ainsert, hk]

theorem aerase_cons_self (m : AMap β) (k : String) (v' : β) :
    aerase ((k, v') :: m) k = m := by
  simp [aerase]

theorem aerase_cons_ne (m : AMap β) (k k' : String) (v' : β) (hk : k' ≠ k) :
    aerase ((k', v') :: m) k = (k', v') :: aerase m k := by
  simp [aerase, hk]

theorem mem_ainsert (m : AMap β) (k : String) (v : β) (p : String × β)
    (h : p ∈ ainsert m k v) : p = (k, v) ∨ p ∈ m := by
  induction m with
  | nil => simpa [ainsert] using h
  | cons q m ih =>
    obtain ⟨k', v'⟩ := q
    by_cases hk : k' = k
    · subst hk
      rw [ainsert_cons_self] at h
      rcases List.mem_cons.1 h with h | h
      · exact Or.inl h
      · exact Or.inr (List.mem_cons.2 (Or.inr h))
    · rw [ainsert_cons_ne m k k' v v' hk] at h
      rcases List.mem_cons.1 h with h | h
      · exact Or.inr (List.mem_cons.2 (Or.inl h))
      · rcases ih h with h' | h'
        · exact Or.inl h'
        · exact Or.inr (List.mem_cons.2 (Or.inr h'))

theorem mem_of_mem_aerase (m : AMap β) (k : String) (p : String × β)
    (h : p ∈ aerase m k) : p ∈ m := by
  induction m with
  | nil => simpa [aerase] using h
  | cons q m ih =>
    obtain ⟨k', v'⟩ := q
    by_cases hk : k' = k
    · subst hk
      rw [aerase_cons_self] at h
      exact List.mem_cons.2 (Or.inr h)
    · rw [aerase_cons_ne m k k' v' hk] at h
      rcases List.mem_cons.1 h with h | h
      · exact List.mem_cons.2 (Or.inl h)
      · exact List.mem_cons.2 (Or.inr (ih h))

theorem afind_aerase_ne (m : AMap β) (k k'' : String) (h : k'' ≠ k) :
    afind (aerase m k) k'' = afind m k'' := by
  induction m with
  | nil => simp [aerase]
  | cons q m ih =>
    obtain ⟨k', v'⟩ := q
    by_cases hk : k' = k
    · subst hk
      simp [aerase, afind, Ne.symm h]
    · by_cases hk2 : k' = k'' <;> simp [aerase, afind, hk, hk2, ih, h]

theorem afind_aerase_self (m : AMap β) (k : String) (hnd : (akeys m).Nodup) :
    afind (aerase m k) k = none := by
  induction m with
  | nil => simp [aerase, afind]
  | cons q m ih =>
    obtain ⟨k', v'⟩ := q
    simp only [akeys, List.map_cons, List.nodup_cons] at hnd
    by_cases hk : k' = k
    · subst hk
      rw [aerase_cons_self]
      cases hfind : afind m k' with
      | none => rfl
      | some w => exact absurd (List.mem_map.2 ⟨(k', w), mem_of_afind m k' w hfind, rfl⟩) hnd.1
    · rw [aerase_cons_ne m k k' v' hk]
      simp [afind, hk, ih hnd.2]

theorem aerase_ainsert (m : AMap β) (k : String) (v : β) :
    aerase (ainsert m k v) k = aerase m k := by
  induction m with
  | nil => simp [ainsert, aerase]
  | cons q m ih =>
    obtain ⟨k', v'⟩ := q
    by_cases hk : k' = k <;> simp [ainsert, aerase, hk, ih]

theorem akeys_nodup_ainsert (m : AMap β) (k : String) (v : β)
    (hnd : (akeys m).Nodup) : (akeys (ainsert m k v)).Nodup := by
  induction m with
  | nil => simp [ainsert, akeys]
  | cons q m ih =>
    obtain ⟨k', v'⟩ := q
    simp only [akeys, List.map_cons, List.nodup_cons] at hnd
    by_cases hk : k' = k
    · subst hk
      rw [ainsert_cons_self]
      simp only [akeys, List.map_cons, List.nodup_cons]
      exact hnd
    · rw [ainsert_cons_ne m k k' v v' hk]
      simp only [akeys, List.map_cons, List.nodup_cons]
      refine ⟨fun hmem => ?_, ih hnd.2⟩
      rcases List.mem_map.1 hmem with ⟨p, hp, hp2⟩
      rcases mem_ainsert m k v p hp with rfl | hp'
      · exact hk hp2.symm
      · exact hnd.1 (List.mem_map.2 ⟨p, hp', hp2⟩)

theorem akeys_nodup_aerase (m : AMap β) (k : String)
    (hnd : (akeys m).Nodup) : (akeys (aerase m k)).Nodup := by
  induction m with
  | nil => simp [aerase, akeys]
  | cons q m ih =>
    obtain ⟨k', v'⟩ := q
    simp only [akeys, List.map_cons, List.nodup_cons] at hnd
    by_cases hk : k' = k
    · subst hk
      rw [aerase_cons_self]
      exact hnd.2
    · rw [aerase_cons_ne m k k' v' hk]
      simp only [akeys, List.map_cons, List.nodup_cons]
      refine ⟨fun hmem => ?_, ih hnd.2⟩
      rcases List.mem_map.1 hmem with ⟨p, hp, hp2⟩
      exact hnd.1 (List.mem_map.2 ⟨p, mem_of_mem_aerase m k p hp, hp2⟩)

/-! ### Characterization of Add -/

theorem add_dup (c : Ctx α δ) (t : T α δ) (st : α) (k1 k2 k3 : String) (u : α)
    (hk : c.keyf st = (k1, k2, k3))
    (h : lookup3 t.sts k1 k2 k3 = some u) :
    T.Add c t st = (t, some Err.DuplicateSTError) := by
  unfold lookup3 at h
  cases h1 : afind t.sts k1 with
  | none => simp [h1] at h
  | some m1 =>
    cases h2 : afind m1 k2 with
    | none => simp [h1, h2] at h
    | some m2 =>
      simp only [h1, h2] at h
      simp only [T.Add, hk, h1, h2, h, Option.isNone_some, Bool.false_eq_true, if_false,
        Option.getD_some]

/-- The in-memory effect of a non-duplicate `Add`, as one closed form: the
intermediate level-creating assignments collapse to a single three-level
insertion. -/
theorem add_fresh_eq (c : Ctx α δ) (t : T α δ) (st : α) (k1 k2 k3 : String)
    (hk : c.keyf st = (k1, k2, k3))
    (hfresh : lookup3 t.sts k1 k2 k3 = none) :
    T.Add c t st =
      (let m1 := (afind t.sts k1).getD aempty
       let m2 := (afind m1 k2).getD aempty
       let sts3 := ainsert t.sts k1 (ainsert m1 k2 (ainsert m2 k3 st))
       match c.mset st [k1, k3 ++ ".json"] t.disk with
       | Except.error e => ({ sts := sts3, disk := t.disk }, some e)
       | Except.ok d => ({ sts := sts3, disk := d }, none)) := by
  unfold lookup3 at hfresh
  cases h1 : afind t.sts k1 with
  | none =>
    simp only [T.Add, hk, h1, Option.isNone_none, if_true, if_pos, Option.getD_none,
      Option.getD_some, afind_ainsert_self, ainsert_ainsert]
    have h2 : afind (aempty : St2Map α) k2 = none := rfl
    simp only [h2, Option.isNone_none, if_true, Option.getD_none, afind_ainsert_self,
      ainsert_ainsert, Option.getD_some]
    have h3 : afind (ainsert (aempty : St2Map α) k2 aempty) k2 = some aempty :=
      afind_ainsert_self aempty k2 aempty
    have h4 : afind (aempty : St1Map α) k3 = none := rfl
    simp only [h3, h4, Option.getD_some, ainsert_ainsert]
  | some m1 =>
    simp only [h1] at hfresh
    cases h2 : afind m1 k2 with
    | none =>
      simp only [T.Add, hk, h1, h2, Option.isNone_some, Bool.false_eq_true, if_false,
        Option.isNone_none, if_true, Option.getD_some, afind_ainsert_self, ainsert_ainsert,
        Option.getD_none]
      have h3 : afind (ainsert m1 k2 aempty) k2 = some aempty := afind_ainsert_self m1 k2 aempty
      have h4 : afind (aempty : St1Map α) k3 = none := rfl
      simp only [h3, h4, Option.getD_some, ainsert_ainsert]
    | some m2 =>
      simp only [h1, h2] at hfresh
      simp only [T.Add, hk, h1, h2, Option.isNone_some, Bool.false_eq_true, if_false,
        Option.getD_some, hfresh]

theorem add_fresh_fail (c : Ctx α δ) (t : T α δ) (st : α) (k1 k2 k3 : String) (e : Err)
    (hk : c.keyf st = (k1, k2, k3))
    (hfresh : lookup3 t.sts k1 k2 k3 = none)
    (hm : c.mset st [k1, k3 ++ ".json"] t.disk = Except.error e) :
    T.Add c t st = ({ sts := addSts t.sts k1 k2 k3 st, disk := t.disk }, some e) := by
  rw [add_fresh_eq c t st k1 k2 k3 hk hfresh]
  simp only [hm, addSts]

theorem add_fresh_ok (c : Ctx α δ) (t : T α δ) (st : α) (k1 k2 k3 : String) (d : δ)
    (hk : c.keyf st = (k1, k2, k3))
    (hfresh : lookup3 t.sts k1 k2 k3 = none)
    (hm : c.mset st [k1, k3 ++ ".json"] t.disk = Except.ok d) :
    T.Add c t st = ({ sts := addSts t.sts k1 k2 k3 st, disk := d }, none) := by
  rw [add_fresh_eq c t st k1 k2 k3 hk hfresh]
  simp only [hm, addSts]

theorem add_fresh_sts (c : Ctx α δ) (t : T α δ) (st : α) (k1 k2 k3 : String)
    (hk : c.keyf st = (k1, k2, k3))
    (hfresh : lookup3 t.sts k1 k2 k3 = none) :
    (T.Add c t st).1.sts = addSts t.sts k1 k2 k3 st := by
  cases hm : c.mset st [k1, k3 ++ ".json"] t.disk with
  | error e => rw [add_fresh_fail c t st k1 k2 k3 e hk hfresh hm]
  | ok d => rw [add_fresh_ok c t st k1 k2 k3 d hk hfresh hm]

theorem lookup3_addSts_self (s : St3Map α) (k1 k2 k3 : String) (st : α) :
    lookup3 (addSts s k1 k2 k3 st) k1 k2 k3 = some st := by
  simp only [lookup3, addSts, afind_ainsert_self]

theorem lookup3_addSts_other (s : St3Map α) (k1 k2 k3 a b c3 : String) (st : α)
    (hne : (a, b, c3) ≠ (k1, k2, k3)) :
    lookup3 (addSts s k1 k2 k3 st) a b c3 = lookup3 s a b c3 := by
  by_cases ha : a = k1
  · subst ha
    by_cases hb : b = k2
    · subst hb
      have hc : c3 ≠ k3 := by
        intro hc
        exact hne (by rw [hc])
      simp only [lookup3, addSts, afind_ainsert_self, afind_ainsert_ne _ _ _ _ hc]
      cases h1 : afind s a with
      | none =>
        have : afind (aempty : St2Map α) b = none := rfl
        simp [h1, Option.getD_none, this, afind]
      | some m1 =>
        simp only [h1, Option.getD_some]
        cases h2 : afind m1 b with
        | none =>
          have : afind (aempty : St1Map α) c3 = none := rfl
          simp [h2, this, afind]
        | some m2 => simp [h2]
    · simp only [lookup3, addSts, afind_ainsert_self, afind_ainsert_ne _ _ _ _ hb]
      cases h1 : afind s a with
      | none =>
        have : afind (aempty : St2Map α) b = none := rfl
        simp [h1, this, afind]
      | some m1 => simp [h1]
  · simp only [lookup3, addSts, afind_ainsert_ne _ _ _ _ ha]

/-! ### Characterization of Del -/

theorem del_absent (c : Ctx α δ) (t : T α δ) (st : α) (k1 k2 k3 : String)
    (hk : c.keyf st = (k1, k2, k3))
    (habs : lookup3 t.sts k1 k2 k3 = none) :
    T.Del c t st = (t, none) := by
  unfold lookup3 at habs
  cases h1 : afind t.sts k1 with
  | none => simp only [T.Del, hk, h1]
  | some m1 =>
    simp only [h1] at habs
    cases h2 : afind m1 k2 with
    | none => simp only [T.Del, hk, h1, h2]
    | some m2 =>
      simp only [h2] at habs
      simp only [T.Del, hk, h1, h2, habs]

theorem del_found_fail (c : Ctx α δ) (t : T α δ) (st : α) (k1 k2 k3 : String)
    (m1 : St2Map α) (m2 : St1Map α) (u : α) (e : Err)
    (hk : c.keyf st = (k1, k2, k3))
    (h1 : afind t.sts k1 = some m1) (h2 : afind m1 k2 = some m2)
    (h3 : afind m2 k3 = some u)
    (hm : c.mdel [k1, k3 ++ ".json"] t.disk = Except.error e) :
    T.Del c t st =
      ({ sts := ainsert t.sts k1 (ainsert m1 k2 (aerase m2 k3)), disk := t.disk }, some e) := by
  simp only [T.Del, hk, h1, h2, h3, hm]

theorem del_found_ok (c : Ctx α δ) (t : T α δ) (st : α) (k1 k2 k3 : String)
    (m1 : St2Map α) (m2 : St1Map α) (u : α) (d : δ)
    (hk : c.keyf st = (k1, k2, k3))
    (h1 : afind t.sts k1 = some m1) (h2 : afind m1 k2 = some m2)
    (h3 : afind m2 k3 = some u)
    (hm : c.mdel [k1, k3 ++ ".json"] t.disk = Except.ok d) :
    T.Del c t st =
      (let m2' := aerase m2 k3
       let m1' := ainsert m1 k2 m2'
       let m1'' := if m2'.isEmpty then aerase m1' k2 else m1'
       if m1''.isEmpty then
         match c.mdel [k1] d with
         | Except.error e => ({ sts := aerase (ainsert t.sts k1 m1'') k1, disk := d }, some e)
         | Except.ok d2 => ({ sts := aerase (ainsert t.sts k1 m1'') k1, disk := d2 }, none)
       else ({ sts := ainsert t.sts k1 m1'', disk := d }, none)) := by
  simp only [T.Del, hk, h1, h2, h3, hm, ainsert_ainsert]

/-! ### Filter membership characterization -/

theorem mem_filter_of_lookup3 (t : T α δ) (a b c3 k1 k2 : String) (st : α)
    (h : lookup3 t.sts a b c3 = some st)
    (hk1 : k1 = "" ∨ a = k1) (hk2 : k2 = "" ∨ b = k2) :
    st ∈ T.Filter t k1 k2 := by
  unfold lookup3 at h
  cases h1 : afind t.sts a with
  | none => simp [h1] at h
  | some m1 =>
    simp only [h1] at h
    cases h2 : afind m1 b with
    | none => simp [h2] at h
    | some m2 =>
      simp only [h2] at h
      unfold T.Filter
      by_cases e1 : k1 = ""
      · by_cases e2 : k2 = ""
        · simp only [e1, e2, if_true]
          exact List.mem_flatMap.2 ⟨(a, m1), mem_of_afind _ _ _ h1,
            List.mem_flatMap.2 ⟨(b, m2), mem_of_afind _ _ _ h2, mem_avalues_of_afind _ _ _ h⟩⟩
        · have hb : b = k2 := hk2.resolve_left e2
          subst hb
          simp only [e1, if_true, e2, if_false]
          refine List.mem_flatMap.2 ⟨(a, m1), mem_of_afind _ _ _ h1, ?_⟩
          simp only [h2, Option.getD_some]
          exact mem_avalues_of_afind _ _ _ h
      · have ha : a = k1 := hk1.resolve_left e1
        subst ha
        by_cases e2 : k2 = ""
        · simp only [e1, if_false, e2, if_true, h1, Option.getD_some]
          exact List.mem_flatMap.2 ⟨(b, m2), mem_of_afind _ _ _ h2, mem_avalues_of_afind _ _ _ h⟩
        · have hb : b = k2 := hk2.resolve_left e2
          subst hb
          simp only [e1, if_false, e2, h1, h2, Option.getD_some]
          exact mem_avalues_of_afind _ _ _ h

theorem lookup3_of_mem_filter (t : T α δ) (k1 k2 : String) (st : α)
    (hwf : WF3 t.sts) (h : st ∈ T.Filter t k1 k2) :
    ∃ a b c3, lookup3 t.sts a b c3 = some st ∧ (k1 = "" ∨ a = k1) ∧ (k2 = "" ∨ b = k2) := by
  unfold T.Filter at h
  by_cases e1 : k1 = ""
  · by_cases e2 : k2 = ""
    · simp only [e1, e2, if_true] at h
      rcases List.mem_flatMap.1 h with ⟨p1, hp1, h⟩
      rcases List.mem_flatMap.1 h with ⟨p2, hp2, h⟩
      rcases (mem_avalues _ _).1 h with ⟨c3, hc3⟩
      refine ⟨p1.1, p2.1, c3, ?_, Or.inl e1, Or.inl e2⟩
      have f1 : afind t.sts p1.1 = some p1.2 := afind_of_mem _ _ _ hwf.1 hp1
      have f2 : afind p1.2 p2.1 = some p2.2 :=
        afind_of_mem _ _ _ (hwf.2 p1 hp1).1 hp2
      have f3 : afind p2.2 c3 = some st :=
        afind_of_mem _ _ _ ((hwf.2 p1 hp1).2 p2 hp2) hc3
      simp only [lookup3, f1, f2, f3]
    · simp only [e1, if_true, e2, if_false] at h
      rcases List.mem_flatMap.1 h with ⟨p1, hp1, h⟩
      cases f2 : afind p1.2 k2 with
      | none =>
        rw [f2] at h
        simp [aempty, avalues] at h
      | some m2 =>
        rw [f2] at h
        simp only [Option.getD_some] at h
        rcases (mem_avalues _ _).1 h with ⟨c3, hc3⟩
        refine ⟨p1.1, k2, c3, ?_, Or.inl e1, Or.inr rfl⟩
        have f1 : afind t.sts p1.1 = some p1.2 := afind_of_mem _ _ _ hwf.1 hp1
        have f3 : afind m2 c3 = some st :=
          afind_of_mem _ _ _ ((hwf.2 p1 hp1).2 (k2, m2) (mem_of_afind _ _ _ f2)) hc3
        simp only [lookup3, f1, f2, f3]
  · by_cases e2 : k2 = ""
    · simp only [e1, if_false, e2, if_true] at h
      cases f1 : afind t.sts k1 with
      | none =>
        rw [f1] at h
        simp [aempty] at h
      | some m1 =>
        rw [f1] at h
        simp only [Option.getD_some] at h
        rcases List.mem_flatMap.1 h with ⟨p2, hp2, h⟩
        rcases (mem_avalues _ _).1 h with ⟨c3, hc3⟩
        refine ⟨k1, p2.1, c3, ?_, Or.inr rfl, Or.inl e2⟩
        have hm1 : (k1, m1) ∈ t.sts := mem_of_afind _ _ _ f1
        have f2 : afind m1 p2.1 = some p2.2 :=
          afind_of_mem _ _ _ (hwf.2 (k1, m1) hm1).1 hp2
        have f3 : afind p2.2 c3 = some st :=
          afind_of_mem _ _ _ ((hwf.2 (k1, m1) hm1).2 p2 hp2) hc3
        simp only [lookup3, f1, f2, f3]
    · simp only [e1, if_false, e2] at h
      cases f1 : afind t.sts k1 with
      | none =>
        rw [f1] at h
        simp [aempty, afind, avalues] at h
      | some m1 =>
        rw [f1] at h
        simp only [Option.getD_some] at h
        cases f2 : afind m1 k2 with
        | none =>
          rw [f2] at h
          simp [aempty, avalues] at h
        | some m2 =>
          rw [f2] at h
          simp only [Option.getD_some] at h
          rcases (mem_avalues _ _).1 h with ⟨c3, hc3⟩
          refine ⟨k1, k2, c3, ?_, Or.inr rfl, Or.inr rfl⟩
          have hm1 : (k1, m1) ∈ t.sts := mem_of_afind _ _ _ f1
          have f3 : afind m2 c3 = some st :=
            afind_of_mem _ _ _ ((hwf.2 (k1, m1) hm1).2 (k2, m2) (mem_of_afind _ _ _ f2)) hc3
          simp only [lookup3, f1, f2, f3]

/-! ### The no-empty-inner-mapping invariant -/

theorem noEmptyInner_aerase (s : St3Map α) (k : String)
    (h : noEmptyInner s) : noEmptyInner (aerase s k) :=
  fun p hp => h p (mem_of_mem_aerase _ _ _ hp)

theorem noEmptyInner_addSts (s : St3Map α) (k1 k2 k3 : String) (st : α)
    (h : noEmptyInner s) : noEmptyInner (addSts s k1 k2 k3 st) := by
  intro p hp
  rcases mem_ainsert _ _ _ p hp with rfl | hp'
  · refine ⟨ainsert_ne_nil _ _ _, ?_⟩
    intro q hq
    rcases mem_ainsert _ _ _ q hq with rfl | hq'
    · exact ainsert_ne_nil _ _ _
    · cases hf : afind s k1 with
      | none =>
        rw [hf] at hq'
        simp [aempty] at hq'
      | some m1 =>
        rw [hf] at hq'
        exact (h (k1, m1) (mem_of_afind _ _ _ hf)).2 q hq'
  · exact h p hp'

theorem noEmptyInner_add (c : Ctx α δ) (t : T α δ) (st : α)
    (h : noEmptyInner t.sts) : noEmptyInner ((T.Add c t st).1.sts) := by
  obtain ⟨⟨k1, k2, k3⟩, hk⟩ : ∃ p, c.keyf st = p := ⟨_, rfl⟩
  cases hl : lookup3 t.sts k1 k2 k3 with
  | some u =>
    rw [add_dup c t st k1 k2 k3 u hk hl]
    exact h
  | none =>
    rw [add_fresh_sts c t st k1 k2 k3 hk hl]
    exact noEmptyInner_addSts _ _ _ _ _ h

theorem noEmptyInner_del (c : Ctx α δ) (t : T α δ) (st : α)
    (hrel : ∀ segs d, ∃ d', c.mdel segs d = Except.ok d')
    (h : noEmptyInner t.sts) : noEmptyInner ((T.Del c t st).1.sts) := by
  obtain ⟨⟨k1, k2, k3⟩, hk⟩ : ∃ p, c.keyf st = p := ⟨_, rfl⟩
  cases hl : lookup3 t.sts k1 k2 k3 with
  | none =>
    rw [del_absent c t st k1 k2 k3 hk hl]
    exact h
  | some u =>
    unfold lookup3 at hl
    cases h1 : afind t.sts k1 with
    | none => simp [h1] at hl
    | some m1 =>
      simp only [h1] at hl
      cases h2 : afind m1 k2 with
      | none => simp [h2] at hl
      | some m2 =>
        simp only [h2] at hl
        obtain ⟨d, hd⟩ := hrel [k1, k3 ++ ".json"] t.disk
        rw [del_found_ok c t st k1 k2 k3 m1 m2 u d hk h1 h2 hl hd]
        have hm1mem : (k1, m1) ∈ t.sts := mem_of_afind _ _ _ h1
        by_cases hemp : (aerase m2 k3).isEmpty = true
        · simp only [hemp, if_true, aerase_ainsert]
          by_cases hemp2 : (aerase m1 k2).isEmpty = true
          · obtain ⟨d2, hd2⟩ := hrel [k1] d
            simp only [hemp2, if_true, hd2]
            exact noEmptyInner_aerase _ _ h
          · simp only [hemp2, Bool.false_eq_true, if_false]
            intro p hp
            rcases mem_ainsert _ _ _ p hp with rfl | hp'
            · refine ⟨by simpa using hemp2, ?_⟩
              intro q hq
              exact (h (k1, m1) hm1mem).2 q (mem_of_mem_aerase _ _ _ hq)
            · exact h p hp'
        · simp only [hemp, Bool.false_eq_true, if_false]
          by_cases hemp2 : (ainsert m1 k2 (aerase m2 k3)).isEmpty = true
          · exact absurd (List.isEmpty_iff.1 hemp2) (ainsert_ne_nil _ _ _)
          · simp only [hemp2, Bool.false_eq_true, if_false]
            intro p hp
            rcases mem_ainsert _ _ _ p hp with rfl | hp'
            · refine ⟨by simpa using hemp2, ?_⟩
              intro q hq
              rcases mem_ainsert _ _ _ q hq with rfl | hq'
              · exact fun hnil => hemp (List.isEmpty_iff.2 hnil)
              · exact (h (k1, m1) hm1mem).2 q hq'
            · exact h p hp'

theorem wf3_addSts (s : St3Map α) (k1 k2 k3 : String) (st : α)
    (h : WF3 s) : WF3 (addSts s k1 k2 k3 st) := by
  have key : ∀ (m1 : St2Map α), (akeys m1).Nodup → (∀ q ∈ m1, (akeys q.2).Nodup) →
      WF3 (ainsert s k1 (ainsert m1 k2 (ainsert ((afind m1 k2).getD aempty) k3 st))) := by
    intro m1 hnd1 hq1
    refine ⟨akeys_nodup_ainsert _ _ _ h.1, ?_⟩
    intro p hp
    rcases mem_ainsert _ _ _ p hp with rfl | hp'
    · constructor
      · exact akeys_nodup_ainsert _ _ _ hnd1
      · intro q hq
        rcases mem_ainsert _ _ _ q hq with rfl | hq'
        · cases hf2 : afind m1 k2 with
          | none => exact akeys_nodup_ainsert _ _ _ (by simp [aempty, akeys])
          | some m2 => exact akeys_nodup_ainsert _ _ _ (hq1 (k2, m2) (mem_of_afind _ _ _ hf2))
        · exact hq1 q hq'
    · exact h.2 p hp'
  unfold addSts
  cases hf : afind s k1 with
  | none =>
    simp only [hf, Option.getD_none]
    exact key aempty (by simp [aempty, akeys]) (by simp [aempty])
  | some m1 =>
    simp only [hf, Option.getD_some]
    exact key m1 (h.2 (k1, m1) (mem_of_afind _ _ _ hf)).1 (h.2 (k1, m1) (mem_of_afind _ _ _ hf)).2

theorem wf3_add (c : Ctx α δ) (t : T α δ) (st : α)
    (h : WF3 t.sts) : WF3 ((T.Add c t st).1.sts) := by
  obtain ⟨⟨k1, k2, k3⟩, hk⟩ : ∃ p, c.keyf st = p := ⟨_, rfl⟩
  cases hl : lookup3 t.sts k1 k2 k3 with
  | some u =>
    rw [add_dup c t st k1 k2 k3 u hk hl]
    exact h
  | none =>
    rw [add_fresh_sts c t st k1 k2 k3 hk hl]
    exact wf3_addSts _ _ _ _ _ h

theorem lookup3_del_self (c : Ctx α δ) (t : T α δ) (st : α) (k1 k2 k3 : String)
    (hk : c.keyf st = (k1, k2, k3)) (hwf : WF3 t.sts) :
    lookup3 (T.Del c t st).1.sts k1 k2 k3 = none := by
  cases hl : lookup3 t.sts k1 k2 k3 with
  | none =>
    rw [del_absent c t st k1 k2 k3 hk hl]
    exact hl
  | some u =>
    unfold lookup3 at hl
    cases h1 : afind t.sts k1 with
    | none => simp [h1] at hl
    | some m1 =>
      simp only [h1] at hl
      cases h2 : afind m1 k2 with
      | none => simp [h2] at hl
      | some m2 =>
        simp only [h2] at hl
        have hm1mem : (k1, m1) ∈ t.sts := mem_of_afind _ _ _ h1
        have hnd1 : (akeys m1).Nodup := (hwf.2 (k1, m1) hm1mem).1
        have hnd2 : (akeys m2).Nodup :=
          (hwf.2 (k1, m1) hm1mem).2 (k2, m2) (mem_of_afind _ _ _ h2)
        have hleaf : afind (aerase m2 k3) k3 = none := afind_aerase_self m2 k3 hnd2
        cases hmd : c.mdel [k1, k3 ++ ".json"] t.disk with
        | error e =>
          rw [del_found_fail c t st k1 k2 k3 m1 m2 u e hk h1 h2 hl hmd]
          simp only [lookup3, afind_ainsert_self, hleaf]
        | ok d =>
          rw [del_found_ok c t st k1 k2 k3 m1 m2 u d hk h1 h2 hl hmd]
          by_cases hemp : (aerase m2 k3).isEmpty = true
          · simp only [hemp, if_true, aerase_ainsert]
            by_cases hemp2 : (aerase m1 k2).isEmpty = true
            · cases hmd2 : c.mdel [k1] d with
              | error e =>
                simp only [hemp2, if_true, hmd2]
                simp only [lookup3, afind_aerase_self t.sts k1 hwf.1]
              | ok d2 =>
                simp only [hemp2, if_true, hmd2]
                simp only [lookup3, afind_aerase_self t.sts k1 hwf.1]
            · simp only [hemp2, Bool.false_eq_true, if_false]
              simp only [lookup3, afind_ainsert_self, afind_aerase_self m1 k2 hnd1]
          · simp only [hemp, Bool.false_eq_true, if_false]
            by_cases hemp2 : (ainsert m1 k2 (aerase m2 k3)).isEmpty = true
            · exact absurd (List.isEmpty_iff.1 hemp2) (ainsert_ne_nil _ _ _)
            · simp only [hemp2, Bool.false_eq_true, if_false]
              simp only [lookup3, afind_ainsert_self, hleaf]

/-! ### Claims -/

/-- C1: for a token whose key triple is not yet occupied, if `Add` inserts it
and the record-store write at (k1, k3) fails, `Add` returns that write error
but the token remains in the in-memory index: a later `Filter(k1,k2)` still
includes it — the insertion is not rolled back. -/
theorem claim_C1_add_write_fail_keeps_token (c : Ctx α δ) (t : T α δ) (st : α)
    (k1 k2 k3 : String) (e : Err)
    (hk : c.keyf st = (k1, k2, k3))
    (hfresh : lookup3 t.sts k1 k2 k3 = none)
    (hfail : c.mset st [k1, k3 ++ ".json"] t.disk = Except.error e) :
    (T.Add c t st).2 = some e ∧ st ∈ T.Filter (T.Add c t st).1 k1 k2 := by
  rw [add_fresh_fail c t st k1 k2 k3 e hk hfresh hfail]
  exact ⟨rfl, mem_filter_of_lookup3 _ k1 k2 k3 k1 k2 st
    (lookup3_addSts_self t.sts k1 k2 k3 st) (Or.inr rfl) (Or.inr rfl)⟩

theorem claim_C1_witness :
    (T.Add failCtx { sts := aempty, disk := () } 0).2 = some (Err.ioErr "io") ∧
      (0 : Nat) ∈ T.Filter (T.Add failCtx { sts := aempty, disk := () } 0).1 "g" "r" :=
  claim_C1_add_write_fail_keeps_token failCtx { sts := aempty, disk := () } 0 "g" "r" "a"
    (Err.ioErr "io") rfl rfl rfl

/-- C2: if the leaf at the token's triple is occupied, `Add` returns
`DuplicateSTError` and changes nothing — the whole store (index and record
store) is identical, and the occupant still sits at the triple. -/
theorem claim_C2_add_duplicate_no_change (c : Ctx α δ) (t : T α δ) (st : α)
    (k1 k2 k3 : String) (u : α)
    (hk : c.keyf st = (k1, k2, k3))
    (hdup : lookup3 t.sts k1 k2 k3 = some u) :
    T.Add c t st = (t, some Err.DuplicateSTError) ∧
      lookup3 (T.Add c t st).1.sts k1 k2 k3 = some u := by
  have h := add_dup c t st k1 k2 k3 u hk hdup
  refine ⟨h, ?_⟩
  rw [h]
  exact hdup

theorem claim_C2_witness :
    T.Add okCtx tW 0 = (tW, some Err.DuplicateSTError) ∧
      lookup3 (T.Add okCtx tW 0).1.sts "g" "r" "a" = some 0 :=
  claim_C2_add_duplicate_no_change okCtx tW 0 "g" "r" "a" 0 rfl rfl

/-- C4: if `Del` finds the token and removes the leaf but the record-store
file deletion fails, the error is returned immediately, the record store is
untouched (in particular no group deletion is attempted), and no pruning
happens: k1 still maps to the k2 map, which still holds the (now possibly
empty) k3 map. -/
theorem claim_C4_del_file_fail_no_prune (c : Ctx α δ) (t : T α δ) (st : α)
    (k1 k2 k3 : String) (m1 : St2Map α) (m2 : St1Map α) (u : α) (e : Err)
    (hk : c.keyf st = (k1, k2, k3))
    (h1 : afind t.sts k1 = some m1) (h2 : afind m1 k2 = some m2)
    (h3 : afind m2 k3 = some u)
    (hfail : c.mdel [k1, k3 ++ ".json"] t.disk = Except.error e) :
    (T.Del c t st).2 = some e ∧
      (T.Del c t st).1.disk = t.disk ∧
      afind (T.Del c t st).1.sts k1 = some (ainsert m1 k2 (aerase m2 k3)) ∧
      afind (ainsert m1 k2 (aerase m2 k3)) k2 = some (aerase m2 k3) := by
  rw [del_found_fail c t st k1 k2 k3 m1 m2 u e hk h1 h2 h3 hfail]
  exact ⟨rfl, rfl, afind_ainsert_self _ _ _, afind_ainsert_self _ _ _⟩

theorem claim_C4_witness :
    (T.Del failCtx tW 0).2 = some (Err.ioErr "io") ∧
      (T.Del failCtx tW 0).1.disk = tW.disk ∧
      afind (T.Del failCtx tW 0).1.sts "g" =
        some (ainsert [("r", [("a", 0)])] "r" (aerase [("a", 0)] "a")) ∧
      afind (ainsert [("r", [("a", 0)])] "r" (aerase [("a", 0)] "a")) "r" =
        some (aerase [("a", 0)] "a") :=
  claim_C4_del_file_fail_no_prune failCtx tW 0 "g" "r" "a" [("r", [("a", 0)])] [("a", 0)] 0
    (Err.ioErr "io") rfl rfl rfl rfl rfl

/-- C6: if any level of the token's triple is absent from the index, `Del`
is a no-op returning success: store (index and record store) unchanged and
no error; consequently a delete after a delete of the same token always
returns success with no error (second conjunct, for well-formed stores). -/
theorem claim_C6_del_absent_noop (c : Ctx α δ) (t : T α δ) (st : α)
    (k1 k2 k3 : String)
    (hk : c.keyf st = (k1, k2, k3))
    (habs : lookup3 t.sts k1 k2 k3 = none) :
    T.Del c t st = (t, none) ∧
      (∀ t' : T α δ, WF3 t'.sts →
        T.Del c (T.Del c t' st).1 st = ((T.Del c t' st).1, none)) := by
  refine ⟨del_absent c t st k1 k2 k3 hk habs, ?_⟩
  intro t' hwf
  exact del_absent c _ st k1 k2 k3 hk (lookup3_del_self c t' st k1 k2 k3 hk hwf)

theorem claim_C6_witness :
    T.Del okCtx { sts := aempty, disk := () } 0 = ({ sts := aempty, disk := () }, none) ∧
      (∀ t' : T Nat Unit, WF3 t'.sts →
        T.Del okCtx (T.Del okCtx t' 0).1 0 = ((T.Del okCtx t' 0).1, none)) :=
  claim_C6_del_absent_noop okCtx { sts := aempty, disk := () } 0 "g" "r" "a" rfl rfl

/-- C5: when `Del` finds the token, removes the leaf and the file deletion
succeeds, and the k3 map under (k1,k2) became empty, then the k2 entry is
removed from k1's map; and if k1's map is then empty, the k1 entry is
removed from the index and the on-disk k1 group is deleted. -/
theorem claim_C5_del_success_prunes (c : Ctx α δ) (t : T α δ) (st : α)
    (k1 k2 k3 : String) (m1 : St2Map α) (m2 : St1Map α) (u : α) (d : δ)
    (hwf : WF3 t.sts)
    (hk : c.keyf st = (k1, k2, k3))
    (h1 : afind t.sts k1 = some m1) (h2 : afind m1 k2 = some m2)
    (h3 : afind m2 k3 = some u)
    (hdel : c.mdel [k1, k3 ++ ".json"] t.disk = Except.ok d)
    (hempty : aerase m2 k3 = []) :
    (∀ m, afind (T.Del c t st).1.sts k1 = some m → afind m k2 = none) ∧
      (aerase m1 k2 ≠ [] →
        T.Del c t st = ({ sts := ainsert t.sts k1 (aerase m1 k2), disk := d }, none)) ∧
      (aerase m1 k2 = [] → ∀ d2, c.mdel [k1] d = Except.ok d2 →
        T.Del c t st = ({ sts := aerase t.sts k1, disk := d2 }, none) ∧
          afind (aerase t.sts k1) k1 = none) := by
  have hnd1 : (akeys m1).Nodup := (hwf.2 (k1, m1) (mem_of_afind _ _ _ h1)).1
  rw [del_found_ok c t st k1 k2 k3 m1 m2 u d hk h1 h2 h3 hdel]
  simp only [hempty, List.isEmpty_nil, if_true, aerase_ainsert]
  by_cases hE : (aerase m1 k2).isEmpty = true
  · have hEnil : aerase m1 k2 = [] := List.isEmpty_iff.1 hE
    simp only [hE, if_true]
    refine ⟨?_, ?_, ?_⟩
    · intro m hm
      cases hmd2 : c.mdel [k1] d with
      | error e =>
        rw [hmd2] at hm
        rw [afind_aerase_self t.sts k1 hwf.1] at hm
        exact absurd hm (by simp)
      | ok d2 =>
        rw [hmd2] at hm
        rw [afind_aerase_self t.sts k1 hwf.1] at hm
        exact absurd hm (by simp)
    · intro hne
      exact absurd hEnil hne
    · intro _ d2 hd2
      simp only [hd2]
      exact ⟨by trivial, afind_aerase_self t.sts k1 hwf.1⟩
  · simp only [hE, Bool.false_eq_true, if_false]
    refine ⟨?_, ?_, ?_⟩
    · intro m hm
      rw [afind_ainsert_self] at hm
      cases hm
      exact afind_aerase_self m1 k2 hnd1
    · intro _
      trivial
    · intro hnil
      exact absurd (List.isEmpty_iff.2 hnil) hE

theorem claim_C5_witness :
    (∀ m, afind (T.Del okCtx tW 0).1.sts "g" = some m → afind m "r" = none) ∧
      (aerase [("r", [("a", 0)])] "r" ≠ [] →
        T.Del okCtx tW 0 =
          ({ sts := ainsert tW.sts "g" (aerase [("r", [("a", 0)])] "r"), disk := () }, none)) ∧
      (aerase [("r", [("a", 0)])] "r" = [] → ∀ d2 : Unit, okCtx.mdel ["g"] () = Except.ok d2 →
        T.Del okCtx tW 0 = ({ sts := aerase tW.sts "g", disk := d2 }, none) ∧
          afind (aerase tW.sts "g") "g" = none) :=
  claim_C5_del_success_prunes okCtx tW 0 "g" "r" "a" [("r", [("a", 0)])] [("a", 0)] 0 ()
    (by decide) rfl rfl rfl rfl rfl rfl

/-- C3 counterexample: with a record store whose deletions fail, the
sequence Add(t); Delete(t) leaves an empty k3 mapping behind under ("g","r"),
so the claimed invariant does not hold after every Add/Delete sequence. -/
theorem claim_C3_counterexample :
    ¬ noEmptyInner (runOps failCtx { sts := aempty, disk := () } [Op.add 0, Op.del 0]).sts := by
  decide

/-- C3 (amended): provided every record-store deletion performed succeeds,
after every sequence of Add and Delete operations from a state with no empty
inner mapping, the index still contains no empty inner mapping: removing the
last k3 under a k2 removes that k2 entry and removing the last k2 under a k1
removes that k1 entry. -/
theorem claim_C3_no_empty_inner (c : Ctx α δ) (t0 : T α δ)
    (hrel : ∀ segs d, ∃ d', c.mdel segs d = Except.ok d')
    (h0 : noEmptyInner t0.sts) (ops : List (Op α)) :
    noEmptyInner (runOps c t0 ops).sts := by
  induction ops generalizing t0 with
  | nil => exact h0
  | cons op ops ih =>
    cases op with
    | add st => exact ih _ (noEmptyInner_add c t0 st h0)
    | del st => exact ih _ (noEmptyInner_del c t0 st hrel h0)

theorem claim_C3_witness :
    noEmptyInner
      (runOps okCtx { sts := aempty, disk := () }
        [Op.add 0, Op.add 1, Op.del 0, Op.del 0]).sts :=
  claim_C3_no_empty_inner okCtx { sts := aempty, disk := () }
    (fun _ d => ⟨d, rfl⟩) (by decide) [Op.add 0, Op.add 1, Op.del 0, Op.del 0]

theorem settling_foldl_from_one (c : Ctx α δ) (rpk : String) (utime : Int) (l : List α) (n : Nat) :
    List.foldl
      (fun r st => if c.settling st utime then ainsert r rpk ((afind r rpk).getD 0 + 1) else r)
      [(rpk, n)] l
      = [(rpk, n + (l.filter (fun st => c.settling st utime)).length)] := by
  induction l generalizing n with
  | nil => simp
  | cons st l ih =>
    cases hs : c.settling st utime with
    | true =>
      have hstep : ainsert [(rpk, n)] rpk ((afind [(rpk, n)] rpk).getD 0 + 1) = [(rpk, n + 1)] := by
        simp [afind, ainsert]
      simp only [List.foldl_cons, hs, if_true, hstep, ih, List.filter_cons, List.length_cons]
      have harith : n + 1 + (List.filter (fun x => c.settling x utime) l).length
          = n + ((List.filter (fun x => c.settling x utime) l).length + 1) := by omega
      rw [harith]
    | false =>
      simp only [List.foldl_cons, hs, Bool.false_eq_true, if_false, ih, List.filter_cons]

theorem settling_foldl_from_empty (c : Ctx α δ) (rpk : String) (utime : Int) (l : List α) :
    List.foldl
      (fun r st => if c.settling st utime then ainsert r rpk ((afind r rpk).getD 0 + 1) else r)
      aempty l
      = (if (l.filter (fun st => c.settling st utime)).length = 0 then aempty
         else [(rpk, (l.filter (fun st => c.settling st utime)).length)]) := by
  induction l with
  | nil => simp [aempty]
  | cons st l ih =>
    cases hs : c.settling st utime with
    | true =>
      have hstep : ainsert aempty rpk ((afind aempty rpk).getD 0 + 1) = [(rpk, 1)] := rfl
      simp only [List.foldl_cons, hs, if_true, hstep, settling_foldl_from_one,
        List.filter_cons, List.length_cons]
      have hne : ¬((List.filter (fun x => c.settling x utime) l).length + 1 = 0) := by omega
      rw [if_neg hne]
      have harith : 1 + (List.filter (fun x => c.settling x utime) l).length
          = (List.filter (fun x => c.settling x utime) l).length + 1 := by omega
      rw [harith]
    | false =>
      simp only [List.foldl_cons, hs, Bool.false_eq_true, if_false, ih, List.filter_cons]

/-- C8: `SettlingAt(rpk, T)` is a map whose only possible key is rpk: it is
the singleton mapping rpk to the number of tokens of `Filter("", rpk)` still
settling at T when that count is nonzero, and the empty mapping (never an
entry with count zero) otherwise. -/
theorem claim_C8_settling_at_counts (c : Ctx α δ) (t : T α δ) (rpk : String) (utime : Int) :
    T.SettlingAt c t rpk utime =
      (if ((T.Filter t "" rpk).filter (fun st => c.settling st utime)).length = 0 then aempty
       else [(rpk, ((T.Filter t "" rpk).filter (fun st => c.settling st utime)).length)]) :=
  settling_foldl_from_empty c rpk utime (T.Filter t "" rpk)

/-! ### Filter as a selection of the flattened entries -/

theorem flatMap_congr_mem (l : List γ) (f g : γ → List β)
    (h : ∀ a ∈ l, f a = g a) : l.flatMap f = l.flatMap g := by
  induction l with
  | nil => rfl
  | cons a l ih =>
    simp only [List.flatMap_cons]
    rw [h a (List.mem_cons_self a l), ih (fun a ha => h a (List.mem_cons_of_mem _ ha))]

theorem filter_map_const (l : List γ) (f : γ → β) (q : β → Bool) (b : Bool)
    (h : ∀ x, q (f x) = b) :
    (l.map f).filter q = if b then l.map f else [] := by
  induction l with
  | nil => cases b <;> simp
  | cons a l ih =>
    simp only [List.map_cons, List.filter_cons, h a, ih]
    cases b <;> simp

theorem flatmap_select {β : Type u} (m : AMap β) (k : String) (g : β → List γ)
    (hnd : (akeys m).Nodup) :
    (m.flatMap fun p => if p.1 = k then g p.2 else []) =
      (match afind m k with
       | none => []
       | some v => g v) := by
  induction m with
  | nil => simp [afind]
  | cons q m ih =>
    obtain ⟨k', v⟩ := q
    simp only [akeys, List.map_cons, List.nodup_cons] at hnd
    by_cases hk : k' = k
    · subst hk
      have hrest : (m.flatMap fun p => if p.1 = k' then g p.2 else []) = [] := by
        refine Eq.trans (flatMap_congr_mem m _ (fun _ => []) (fun p hp => ?_)) (by simp)
        have hne : p.1 ≠ k' := by
          intro hp1
          exact hnd.1 (hp1 ▸ List.mem_map.2 ⟨p, hp, rfl⟩)
        exact if_neg hne
      simp only [List.flatMap_cons]
      rw [hrest]
      simp [afind]
    · simp only [List.flatMap_cons]
      rw [ih hnd.2]
      simp [afind, hk]

theorem entries3_filter_map (s : St3Map α) (q1 q2 : String → Bool) :
    ((entries3 s).filter fun e => q1 e.1 && q2 e.2.1).map (fun e => e.2.2.2) =
      s.flatMap fun p1 =>
        if q1 p1.1 then
          (p1.2.flatMap fun p2 => if q2 p2.1 then avalues p2.2 else []) else [] := by
  unfold entries3
  rw [List.filter_flatMap, List.map_flatMap]
  refine flatMap_congr_mem _ _ _ (fun p1 _ => ?_)
  rw [List.filter_flatMap, List.map_flatMap]
  by_cases hq1 : q1 p1.1 = true
  · rw [if_pos hq1]
    refine flatMap_congr_mem _ _ _ (fun p2 _ => ?_)
    by_cases hq2 : q2 p2.1 = true
    · rw [if_pos hq2, filter_map_const _ _ _ true (fun r => by simp [hq1, hq2])]
      simp [avalues, List.map_map, Function.comp]
    · have hq2' : q2 p2.1 = false := by simpa using hq2
      rw [if_neg (by simp [hq2']), filter_map_const _ _ _ false (fun r => by simp [hq2'])]
      simp
  · have hq1' : q1 p1.1 = false := by simpa using hq1
    rw [if_neg (by simp [hq1'])]
    refine Eq.trans (flatMap_congr_mem _ _ (fun _ => ([] : List α)) (fun p2 _ => ?_)) (by simp)
    rw [filter_map_const _ _ _ false (fun r => by simp [hq1'])]
    simp

/-- C7: Filter implements wildcard semantics with the empty string matching
every value at its level: the result is, up to permutation, exactly the
tokens of the flattened index entries whose k1 matches the first argument
(anything, when it is "") and whose k2 matches the second (anything, when it
is "") — so Filter("","") returns all tokens, Filter("",k2) those with
second key k2 across every k1, Filter(k1,"") all under k1, and Filter(k1,k2)
those at that pair; the result may be empty. -/
theorem claim_C7_filter_wildcards (t : T α δ) (hwf : WF3 t.sts) (k1 k2 : String) :
    (T.Filter t k1 k2).Perm
      (((entries3 t.sts).filter fun e =>
          decide (k1 = "" ∨ e.1 = k1) && decide (k2 = "" ∨ e.2.1 = k2)).map
        fun e => e.2.2.2) := by
  have hmain := entries3_filter_map t.sts (fun a => decide (k1 = "" ∨ a = k1))
      (fun b => decide (k2 = "" ∨ b = k2))
  rw [hmain]
  suffices heq : T.Filter t k1 k2 =
      (t.sts.flatMap fun p1 =>
        if decide (k1 = "" ∨ p1.1 = k1) then
          (p1.2.flatMap fun p2 => if decide (k2 = "" ∨ p2.1 = k2) then avalues p2.2 else [])
        else []) by
    rw [heq]
  by_cases e1 : k1 = ""
  · subst e1
    by_cases e2 : k2 = ""
    · subst e2
      simp [T.Filter]
    · have hR : (t.sts.flatMap fun p1 =>
          if decide ((("" : String) = "") ∨ p1.1 = "") then
            (p1.2.flatMap fun p2 => if decide (k2 = "" ∨ p2.1 = k2) then avalues p2.2 else [])
          else [])
          = t.sts.flatMap fun p1 =>
              p1.2.flatMap fun p2 => if p2.1 = k2 then avalues p2.2 else [] := by
        refine flatMap_congr_mem _ _ _ (fun p1 _ => ?_)
        rw [if_pos (by simp)]
        exact flatMap_congr_mem _ _ _ (fun p2 _ => by simp [e2])
      have hL : T.Filter t "" k2 =
          t.sts.flatMap fun p1 => avalues ((afind p1.2 k2).getD aempty) := by
        unfold T.Filter
        rw [if_pos rfl, if_neg e2]
      rw [hL, hR]
      refine flatMap_congr_mem _ _ _ (fun p1 hp1 => ?_)
      rw [flatmap_select p1.2 k2 avalues (hwf.2 p1 hp1).1]
      cases afind p1.2 k2 <;> simp [aempty, avalues]
  · by_cases e2 : k2 = ""
    · subst e2
      have hR : (t.sts.flatMap fun p1 =>
          if decide (k1 = "" ∨ p1.1 = k1) then
            (p1.2.flatMap fun p2 =>
              if decide ((("" : String) = "") ∨ p2.1 = "") then avalues p2.2 else [])
          else [])
          = t.sts.flatMap fun p1 =>
              if p1.1 = k1 then (p1.2.flatMap fun p2 => avalues p2.2) else [] := by
        refine flatMap_congr_mem _ _ _ (fun p1 _ => ?_)
        by_cases hp : p1.1 = k1
        · rw [if_pos (by simp [hp]), if_pos hp]
          exact flatMap_congr_mem _ _ _ (fun p2 _ => by simp)
        · rw [if_neg (by simp [e1, hp]), if_neg hp]
      have hL : T.Filter t k1 "" =
          ((afind t.sts k1).getD aempty).flatMap fun p2 => avalues p2.2 := by
        unfold T.Filter
        rw [if_neg e1, if_pos rfl]
      rw [hL, hR,
        flatmap_select t.sts k1 (fun m1 => m1.flatMap fun p2 => avalues p2.2) hwf.1]
      cases afind t.sts k1 <;> simp [aempty]
    · have hR : (t.sts.flatMap fun p1 =>
          if decide (k1 = "" ∨ p1.1 = k1) then
            (p1.2.flatMap fun p2 => if decide (k2 = "" ∨ p2.1 = k2) then avalues p2.2 else [])
          else [])
          = t.sts.flatMap fun p1 =>
              if p1.1 = k1 then
                (p1.2.flatMap fun p2 => if p2.1 = k2 then avalues p2.2 else []) else [] := by
        refine flatMap_congr_mem _ _ _ (fun p1 _ => ?_)
        by_cases hp : p1.1 = k1
        · rw [if_pos (by simp [hp]), if_pos hp]
          exact flatMap_congr_mem _ _ _ (fun p2 _ => by simp [e2])
        · rw [if_neg (by simp [e1, hp]), if_neg hp]
      have hL : T.Filter t k1 k2 =
          avalues ((afind ((afind t.sts k1).getD aempty) k2).getD aempty) := by
        unfold T.Filter
        rw [if_neg e1, if_neg e2]
      rw [hL, hR,
        flatmap_select t.sts k1
          (fun m1 => m1.flatMap fun p2 => if p2.1 = k2 then avalues p2.2 else []) hwf.1]
      cases hf1 : afind t.sts k1 with
      | none => simp [aempty, afind, avalues]
      | some m1 =>
        show avalues ((afind m1 k2).getD aempty)
          = List.flatMap m1 fun p2 => if p2.1 = k2 then avalues p2.2 else []
        rw [flatmap_select m1 k2 avalues (hwf.2 (k1, m1) (mem_of_afind _ _ _ hf1)).1]
        cases afind m1 k2 <;> simp [aempty, avalues]

theorem claim_C7_witness :
    (T.Filter { sts := [("g", [("r", [("a", 0)]), ("s", [("b", 1)])])], disk := () } "g" "s").Perm
      (((entries3 [("g", [("r", [("a", 0)]), ("s", [("b", (1 : Nat))])])]).filter fun e =>
          decide (("g" : String) = "" ∨ e.1 = "g") && decide (("s" : String) = "" ∨ e.2.1 = "s")).map
        fun e => e.2.2.2) :=
  claim_C7_filter_wildcards { sts := [("g", [("r", [("a", 0)]), ("s", [("b", 1)])])], disk := () }
    (by decide) "g" "s"

/-- C10: Filter never distinguishes an empty-string stored key from a
wildcard argument: for a token not occurring in a well-formed store whose
derived k2 is the empty string, after a successful Add the token is
reachable exactly through wildcard second arguments — Filter(k1,"") and
Filter("","") include it, while every Filter call with a non-empty second
argument misses it, so no argument selects exactly the tokens whose stored
key equals the empty string. -/
theorem claim_C10_empty_key_only_wildcard (c : Ctx α δ) (t : T α δ) (st : α)
    (k1 k3 : String) (d : δ)
    (hwf : WF3 t.sts)
    (hk : c.keyf st = (k1, "", k3))
    (hk1 : k1 ≠ "")
    (hfresh : lookup3 t.sts k1 "" k3 = none)
    (hnew : ∀ a b c3, lookup3 t.sts a b c3 ≠ some st)
    (hset : c.mset st [k1, k3 ++ ".json"] t.disk = Except.ok d) :
    st ∈ T.Filter (T.Add c t st).1 k1 "" ∧
      st ∈ T.Filter (T.Add c t st).1 "" "" ∧
      ∀ a b, b ≠ "" → st ∉ T.Filter (T.Add c t st).1 a b := by
  have hsts : (T.Add c t st).1.sts = addSts t.sts k1 "" k3 st :=
    add_fresh_sts c t st k1 "" k3 hk hfresh
  have hlook : lookup3 (T.Add c t st).1.sts k1 "" k3 = some st := by
    rw [hsts]
    exact lookup3_addSts_self t.sts k1 "" k3 st
  refine ⟨?_, ?_, ?_⟩
  · exact mem_filter_of_lookup3 _ k1 "" k3 k1 "" st hlook (Or.inr rfl) (Or.inl rfl)
  · exact mem_filter_of_lookup3 _ k1 "" k3 "" "" st hlook (Or.inl rfl) (Or.inl rfl)
  · intro a b hb hmem
    have hwf' : WF3 (T.Add c t st).1.sts := wf3_add c t st hwf
    rcases lookup3_of_mem_filter _ a b st hwf' hmem with ⟨a', b', c3', hl, _, hb'⟩
    have hbb : b' = b := hb'.resolve_left hb
    rw [hsts] at hl
    by_cases htr : (a', b', c3') = (k1, "", k3)
    · have hb2 : b' = "" := congrArg (fun p => p.2.1) htr
      exact hb (hbb.symm.trans hb2)
    · rw [lookup3_addSts_other t.sts k1 "" k3 a' b' c3' st htr] at hl
      exact hnew a' b' c3' hl

theorem claim_C10_witness :
    (0 : Nat) ∈ T.Filter (T.Add okCtxE { sts := aempty, disk := () } 0).1 "g" "" ∧
      (0 : Nat) ∈ T.Filter (T.Add okCtxE { sts := aempty, disk := () } 0).1 "" "" ∧
      (0 : Nat) ∉ T.Filter (T.Add okCtxE { sts := aempty, disk := () } 0).1 "g" "x" := by
  have h := claim_C10_empty_key_only_wildcard okCtxE { sts := aempty, disk := () } 0 "g" "a" ()
    (by decide) rfl (by decide) rfl (fun _ _ _ h => Option.noConfusion h) rfl
  exact ⟨h.1, h.2.1, h.2.2 "g" "x" (by decide)⟩

/-! ### Bootstrap reconstruction -/

theorem hasSuffix_append_json (s : String) : hasSuffix (s ++ ".json") ".json" = true := by
  unfold hasSuffix
  rw [decide_eq_true_eq, String.data_append]
  exact List.suffix_append _ _

theorem append_json_inj (a b : String) (h : a ++ ".json" = b ++ ".json") : a = b := by
  have hd := congrArg String.data h
  rw [String.data_append, String.data_append] at hd
  exact String.ext (List.append_cancel_right hd)

theorem lookup3_addIdx (kf : α → String × String × String) (s : St3Map α) (st : α)
    (a b c3 : String) :
    lookup3 (addIdx kf s st) a b c3 =
      if (a, b, c3) = kf st then some st else lookup3 s a b c3 := by
  by_cases h : (a, b, c3) = kf st
  · rw [if_pos h]
    have h1 : a = (kf st).1 := congrArg (fun p => p.1) h
    have h2 : b = (kf st).2.1 := congrArg (fun p => p.2.1) h
    have h3 : c3 = (kf st).2.2 := congrArg (fun p => p.2.2) h
    subst h1
    subst h2
    subst h3
    exact lookup3_addSts_self s _ _ _ st
  · rw [if_neg h]
    exact lookup3_addSts_other s _ _ _ a b c3 st h

theorem loadRecs_run (c : Ctx α (Disk α)) (ts : List α) (t : T α (Disk α))
    (hok : ∀ st dir name d, ∃ d', c.mset st [dir, name] d = Except.ok d')
    (hfr : ∀ u ∈ ts, lookup3 t.sts (c.keyf u).1 (c.keyf u).2.1 (c.keyf u).2.2 = none)
    (hpw : ts.Pairwise (fun x y => c.keyf x ≠ c.keyf y)) :
    ∃ d2, loadRecs c (ts.map (mkRec c.keyf)) t
      = Except.ok { sts := ts.foldl (addIdx c.keyf) t.sts, disk := d2 } := by
  induction ts generalizing t with
  | nil => exact ⟨t.disk, rfl⟩
  | cons u ts ih =>
    obtain ⟨d', hd'⟩ := hok u (c.keyf u).1 ((c.keyf u).2.2 ++ ".json") t.disk
    have hfresh := hfr u (List.mem_cons_self u ts)
    have hadd : T.Add c t u =
        ({ sts := addSts t.sts (c.keyf u).1 (c.keyf u).2.1 (c.keyf u).2.2 u, disk := d' },
          none) :=
      add_fresh_ok c t u _ _ _ d' rfl hfresh hd'
    have hstep : loadRecs c ((u :: ts).map (mkRec c.keyf)) t
        = loadRecs c (ts.map (mkRec c.keyf))
            { sts := addSts t.sts (c.keyf u).1 (c.keyf u).2.1 (c.keyf u).2.2 u, disk := d' } := by
      simp [List.map_cons, loadRecs, mkRec, hasSuffix_append_json, hadd]
    have hfr' : ∀ v ∈ ts,
        lookup3 (addSts t.sts (c.keyf u).1 (c.keyf u).2.1 (c.keyf u).2.2 u)
          (c.keyf v).1 (c.keyf v).2.1 (c.keyf v).2.2 = none := by
      intro v hv
      have hne : c.keyf u ≠ c.keyf v := (List.pairwise_cons.1 hpw).1 v hv
      rw [lookup3_addSts_other]
      · exact hfr v (List.mem_cons_of_mem _ hv)
      · intro hcontra
        exact hne hcontra.symm
    obtain ⟨d2, hd2⟩ :=
      ih { sts := addSts t.sts (c.keyf u).1 (c.keyf u).2.1 (c.keyf u).2.2 u, disk := d' }
        hfr' (List.pairwise_cons.1 hpw).2
    refine ⟨d2, ?_⟩
    rw [hstep, hd2]
    rfl

theorem addAll_run (kf : α → String × String × String) (sg : α → Int → Bool)
    (ts : List α) (t : T α (Disk α))
    (hfr : ∀ u ∈ ts, lookup3 t.sts (kf u).1 (kf u).2.1 (kf u).2.2 = none)
    (hpw : ts.Pairwise (fun x y => ((kf x).1, (kf x).2.2) ≠ ((kf y).1, (kf y).2.2)))
    (hdisk : ∀ u ∈ ts, ∀ r ∈ t.disk, ¬(r.dir = (kf u).1 ∧ r.name = (kf u).2.2 ++ ".json")) :
    addAll (fsCtx kf sg) ts t
      = ({ sts := ts.foldl (addIdx kf) t.sts, disk := t.disk ++ ts.map (mkRec kf) }, true) := by
  induction ts generalizing t with
  | nil => simp [addAll]
  | cons u ts ih =>
    have hfresh := hfr u (List.mem_cons_self u ts)
    have hfilter : t.disk.filter
        (fun r => !(r.dir = (kf u).1 ∧ r.name = (kf u).2.2 ++ ".json" : Bool)) = t.disk := by
      refine List.filter_eq_self.2 (fun r hr => ?_)
      simp [hdisk u (List.mem_cons_self u ts) r hr]
    have hset : (fsCtx kf sg).mset u [(kf u).1, (kf u).2.2 ++ ".json"] t.disk
        = Except.ok (t.disk ++ [mkRec kf u]) := by
      have hbase : fsSet u [(kf u).1, (kf u).2.2 ++ ".json"] t.disk
          = Except.ok (t.disk.filter
              (fun r => !(r.dir = (kf u).1 ∧ r.name = (kf u).2.2 ++ ".json" : Bool))
            ++ [mkRec kf u]) := rfl
      show fsSet u [(kf u).1, (kf u).2.2 ++ ".json"] t.disk = _
      rw [hbase, hfilter]
    have hadd : T.Add (fsCtx kf sg) t u =
        ({ sts := addSts t.sts (kf u).1 (kf u).2.1 (kf u).2.2 u,
           disk := t.disk ++ [mkRec kf u] }, none) :=
      add_fresh_ok (fsCtx kf sg) t u _ _ _ _ rfl hfresh hset
    have hstep : addAll (fsCtx kf sg) (u :: ts) t
        = addAll (fsCtx kf sg) ts
            { sts := addSts t.sts (kf u).1 (kf u).2.1 (kf u).2.2 u,
              disk := t.disk ++ [mkRec kf u] } := by
      simp [addAll, hadd]
    have hfr' : ∀ v ∈ ts,
        lookup3 (addSts t.sts (kf u).1 (kf u).2.1 (kf u).2.2 u)
          (kf v).1 (kf v).2.1 (kf v).2.2 = none := by
      intro v hv
      have hne13 : ((kf u).1, (kf u).2.2) ≠ ((kf v).1, (kf v).2.2) :=
        (List.pairwise_cons.1 hpw).1 v hv
      rw [lookup3_addSts_other]
      · exact hfr v (List.mem_cons_of_mem _ hv)
      · intro hcontra
        refine hne13 ?_
        have h1 : (kf v).1 = (kf u).1 := congrArg (fun p => p.1) hcontra
        have h3 : (kf v).2.2 = (kf u).2.2 := congrArg (fun p => p.2.2) hcontra
        rw [h1, h3]
    have hdisk' : ∀ v ∈ ts, ∀ r ∈ t.disk ++ [mkRec kf u],
        ¬(r.dir = (kf v).1 ∧ r.name = (kf v).2.2 ++ ".json") := by
      intro v hv r hr
      rcases List.mem_append.1 hr with hr | hr
      · exact hdisk v (List.mem_cons_of_mem _ hv) r hr
      · have hru : r = mkRec kf u := by simpa using hr
        subst hru
        rintro ⟨hdir, hname⟩
        have hk3 : (kf u).2.2 = (kf v).2.2 := append_json_inj _ _ hname
        have hk1 : (kf u).1 = (kf v).1 := hdir
        exact (List.pairwise_cons.1 hpw).1 v hv (by rw [hk1, hk3])
    have hres := ih { sts := addSts t.sts (kf u).1 (kf u).2.1 (kf u).2.2 u, disk := t.disk ++ [mkRec kf u] } hfr' (List.pairwise_cons.1 hpw).2 hdisk'
    rw [hstep, hres]
    simp [List.append_assoc]
    rfl

theorem loadRecs_corrupt (c : Ctx α (Disk α)) (rs : List (FileRec α)) (t : T α (Disk α))
    (hbad : ∃ r ∈ rs, hasSuffix r.name ".json" = true ∧ r.blob = none) :
    ∀ s, loadRecs c rs t ≠ Except.ok s := by
  induction rs generalizing t with
  | nil =>
    rcases hbad with ⟨r, hr, _⟩
    exact absurd hr (List.not_mem_nil r)
  | cons r rs ih =>
    intro s
    rcases hbad with ⟨r', hr', hsfx', hblob'⟩
    by_cases hsfx : hasSuffix r.name ".json" = true
    · cases hblob : r.blob with
      | none =>
        simp only [loadRecs, hsfx, if_true, hblob]
        exact fun h => Except.noConfusion h
      | some st =>
        rcases List.mem_cons.1 hr' with rfl | hr'
        · rw [hblob] at hblob'
          exact absurd hblob' (by simp)
        · simp only [loadRecs, hsfx, if_true, hblob]
          cases hadd : T.Add c t st with
          | mk t1 err =>
            cases err with
            | none => exact ih t1 ⟨r', hr', hsfx', hblob'⟩ s
            | some e => exact fun h => Except.noConfusion h
    · rcases List.mem_cons.1 hr' with rfl | hr'
      · exact absurd hsfx' hsfx
      · simp only [loadRecs, hsfx, Bool.false_eq_true, if_false]
        exact ih t ⟨r', hr', hsfx', hblob'⟩ s

theorem loadRecs_ok_pairwise (c : Ctx α (Disk α)) (rs : List (FileRec α)) (t : T α (Disk α))
    (s : T α (Disk α)) (h : loadRecs c rs t = Except.ok s) :
    (jsonTokens rs).Pairwise (fun x y => c.keyf x ≠ c.keyf y) ∧
      ∀ u ∈ jsonTokens rs,
        lookup3 t.sts (c.keyf u).1 (c.keyf u).2.1 (c.keyf u).2.2 = none := by
  induction rs generalizing t with
  | nil => exact ⟨List.Pairwise.nil, by simp [jsonTokens]⟩
  | cons r rs ih =>
    by_cases hsfx : hasSuffix r.name ".json" = true
    · cases hblob : r.blob with
      | none =>
        simp only [loadRecs, hsfx, if_true, hblob] at h
        exact absurd h (fun hc => Except.noConfusion hc)
      | some st =>
        simp only [loadRecs, hsfx, if_true, hblob] at h
        have hjt : jsonTokens (r :: rs) = st :: jsonTokens rs := by
          simp [jsonTokens, List.filterMap_cons, hsfx, hblob]
        cases hadd : T.Add c t st with
        | mk t1 err =>
          rw [hadd] at h
          cases err with
          | some e => exact absurd h (fun hc => Except.noConfusion hc)
          | none =>
            have hfresh : lookup3 t.sts (c.keyf st).1 (c.keyf st).2.1 (c.keyf st).2.2
                = none := by
              cases hl : lookup3 t.sts (c.keyf st).1 (c.keyf st).2.1 (c.keyf st).2.2 with
              | none => rfl
              | some u =>
                have hdup := add_dup c t st _ _ _ u rfl hl
                rw [hadd] at hdup
                have : (none : Option Err) = some Err.DuplicateSTError :=
                  congrArg (fun p => p.2) hdup
                exact absurd this (by simp)
            have ht1 : t1.sts = addIdx c.keyf t.sts st := by
              have := add_fresh_sts c t st _ _ _ rfl hfresh
              rw [hadd] at this
              exact this
            obtain ⟨hpw, hfr⟩ := ih t1 h
            rw [hjt]
            constructor
            · refine List.pairwise_cons.2 ⟨?_, hpw⟩
              intro v hv hkeq
              have := hfr v hv
              rw [ht1, lookup3_addIdx] at this
              rw [if_pos (by rw [hkeq])] at this
              exact Option.noConfusion this
            · intro v hv
              rcases List.mem_cons.1 hv with rfl | hv
              · exact hfresh
              · have := hfr v hv
                rw [ht1, lookup3_addIdx] at this
                by_cases hk : ((c.keyf v).1, (c.keyf v).2.1, (c.keyf v).2.2) = c.keyf st
                · rw [if_pos hk] at this
                  exact Option.noConfusion this
                · rw [if_neg hk] at this
                  exact this
    · simp only [loadRecs, hsfx, Bool.false_eq_true, if_false] at h
      have hjt : jsonTokens (r :: rs) = jsonTokens rs := by
        simp [jsonTokens, List.filterMap_cons, hsfx]
      rw [hjt]
      exact ih t h

/-- C9 counterexample: tokens 0 and 1 have distinct triples ("a","b","c") and
("a","B","c") under kf9, both Adds succeed, and the bootstrap loader over the
resulting layout succeeds — but the two triples share the on-disk path
a/c.json, so the second write overwrote the first record and the rebuilt
store's Filter("a","b") is empty while the original's is [0]. -/
theorem claim_C9_counterexample :
    ([0, 1] : List Nat).Pairwise (fun x y => kf9 x ≠ kf9 y) ∧
      (addAll c9 [0, 1] { sts := aempty, disk := [] }).2 = true ∧
      T.Filter (addAll c9 [0, 1] { sts := aempty, disk := [] }).1 "a" "b" = [0] ∧
      (New c9 (addAll c9 [0, 1] { sts := aempty, disk := [] }).1.disk).map
        (fun s2 => T.Filter s2 "a" "b") = Except.ok [] := by
  refine ⟨by decide, rfl, rfl, rfl⟩

/-- C9 (amended): under the spec-modelled RecordStore, for every finite list
of tokens whose (k1,k3) projections are pairwise distinct — distinct triples
alone do not suffice, since two triples sharing (k1,k3) collide on the same
file — sequential Adds from an empty store all succeed, and the bootstrap
loader over the resulting on-disk layout succeeds and yields a store with
identical Filter results (up to permutation, for every k1 and k2); and
construction fails entirely whenever some ".json" record fails to
deserialize or the deserialized tokens contain a duplicate key triple. -/
theorem claim_C9_bootstrap_refinement (kf : α → String × String × String)
    (sg : α → Int → Bool) (ts : List α)
    (hpw : ts.Pairwise (fun x y => ((kf x).1, (kf x).2.2) ≠ ((kf y).1, (kf y).2.2))) :
    (addAll (fsCtx kf sg) ts { sts := aempty, disk := [] }).2 = true ∧
      (∃ s2, New (fsCtx kf sg) (addAll (fsCtx kf sg) ts { sts := aempty, disk := [] }).1.disk
          = Except.ok s2 ∧
        ∀ k1 k2, (T.Filter s2 k1 k2).Perm
          (T.Filter (addAll (fsCtx kf sg) ts { sts := aempty, disk := [] }).1 k1 k2)) ∧
      (∀ d : Disk α, (∃ r ∈ d, hasSuffix r.name ".json" = true ∧ r.blob = none) →
        ∀ s, New (fsCtx kf sg) d ≠ Except.ok s) ∧
      (∀ d : Disk α, ¬ (jsonTokens d).Pairwise (fun x y => kf x ≠ kf y) →
        ∀ s, New (fsCtx kf sg) d ≠ Except.ok s) := by
  have hrun := addAll_run kf sg ts { sts := aempty, disk := [] }
    (fun u _ => rfl) hpw (fun u _ r hr => absurd hr (List.not_mem_nil r))
  obtain ⟨d2, hload⟩ := loadRecs_run (fsCtx kf sg) ts
    { sts := aempty, disk := ([] : Disk α) ++ ts.map (mkRec kf) }
    (fun st dir name d => ⟨_, rfl⟩) (fun u _ => rfl)
    (hpw.imp fun hne hkeq => hne (congrArg (fun p => (p.1, p.2.2)) hkeq))
  refine ⟨by rw [hrun], ?_, ?_, ?_⟩
  · refine ⟨{ sts := ts.foldl (addIdx kf) aempty, disk := d2 }, ?_, ?_⟩
    · rw [hrun]
      exact hload
    · intro k1 k2
      have heq : T.Filter { sts := ts.foldl (addIdx kf) aempty, disk := d2 } k1 k2
          = T.Filter (addAll (fsCtx kf sg) ts { sts := aempty, disk := [] }).1 k1 k2 := by
        rw [hrun]
        rfl
      rw [heq]
  · intro d hbad s
    exact loadRecs_corrupt (fsCtx kf sg) d { sts := aempty, disk := d } hbad s
  · intro d hnp s hok
    exact hnp (loadRecs_ok_pairwise (fsCtx kf sg) d { sts := aempty, disk := d } s hok).1

theorem claim_C9_witness :
    (addAll (fsCtx kfW (fun _ _ => false)) [0, 1, 2] { sts := aempty, disk := [] }).2 = true ∧
      (∃ s2, New (fsCtx kfW (fun _ _ => false))
          (addAll (fsCtx kfW (fun _ _ => false)) [0, 1, 2]
            { sts := aempty, disk := [] }).1.disk = Except.ok s2 ∧
        ∀ k1 k2, (T.Filter s2 k1 k2).Perm
          (T.Filter (addAll (fsCtx kfW (fun _ _ => false)) [0, 1, 2]
            { sts := aempty, disk := [] }).1 k1 k2)) ∧
      (∀ d : Disk Nat, (∃ r ∈ d, hasSuffix r.name ".json" = true ∧ r.blob = none) →
        ∀ s, New (fsCtx kfW (fun _ _ => false)) d ≠ Except.ok s) ∧
      (∀ d : Disk Nat, ¬ (jsonTokens d).Pairwise (fun x y => kfW x ≠ kfW y) →
        ∀ s, New (fsCtx kfW (fun _ _ => false)) d ≠ Except.ok s) :=
  claim_C9_bootstrap_refinement kfW (fun _ _ => false) [0, 1, 2] (by decide)
